import Mathlib

/-!
Shallow embedding of the filename-generation and sequential-numbering engine
of the two application variants in this repository: `src/app.js` (the richer
variant, with an implementer field) and `src/script.js` (the simpler variant).
JS strings are modelled as `String`/`List Char`, JS objects and `Map`s as
insertion-ordered association lists, and the DOM form fields as explicit
records passed to each operation.
-/

/-- The character class of the JS regex `\s` (also the set stripped by
`String.prototype.trim`): space, tab, line terminators, and the Unicode
space separators. -/
def jsWhitespace (c : Char) : Bool :=
  c.toNat = 0x20 || c.toNat = 0x09 || c.toNat = 0x0a || c.toNat = 0x0b ||
  c.toNat = 0x0c || c.toNat = 0x0d || c.toNat = 0xa0 || c.toNat = 0x1680 ||
  (0x2000 ≤ c.toNat && c.toNat ≤ 0x200a) || c.toNat = 0x2028 || c.toNat = 0x2029 ||
  c.toNat = 0x202f || c.toNat = 0x205f || c.toNat = 0x3000 || c.toNat = 0xfeff

/-- The character class of `script.js`'s `sanitizeFilename` removal regex:
the characters forbidden in filenames plus the C0 control characters. -/
def isForbiddenChar (c : Char) : Bool :=
  c = '<' || c = '>' || c = ':' || c = '"' || c = '/' || c = '\\' ||
  c = '|' || c = '?' || c = '*' || c.toNat ≤ 0x1f

/-- One left-to-right pass of `replace(/\s+/g, ' ')`: each maximal run of
whitespace becomes a single space.  The flag records whether the previous
character was part of a whitespace run. -/
def collapseWsAux : Bool → List Char → List Char
  | _, [] => []
  | true, c :: cs =>
    if jsWhitespace c then collapseWsAux true cs
    else c :: collapseWsAux false cs
  | false, c :: cs =>
    if jsWhitespace c then ' ' :: collapseWsAux true cs
    else c :: collapseWsAux false cs

/-- JS `String.prototype.trim`: drop whitespace from both ends. -/
def trimWs (l : List Char) : List Char :=
  ((l.dropWhile (fun c => jsWhitespace c)).reverse.dropWhile (fun c => jsWhitespace c)).reverse

/-- JS `String.prototype.trim` on strings. -/
def jsTrim (s : String) : String :=
  String.mk (trimWs s.data)

/-- Model of `script.js` `sanitizeFilename`: the empty string (the only falsy string)
maps to `"untitled"`; otherwise remove the forbidden characters, collapse
whitespace runs to single spaces, and trim. -/
def sanitizeFilename (s : String) : String :=
  if s = "" then "untitled"
  else String.mk (trimWs (collapseWsAux false (s.data.filter (fun c => !isForbiddenChar c))))

/-- Value of a digit string, as computed by JS `parseInt` on an all-digit
string (modelled exactly, over `Nat`). -/
def digitsVal (ds : List Char) : Nat :=
  ds.foldl (fun a c => a * 10 + (c.toNat - 48)) 0

/-- The match of the regex used by `getNextNumber` on an assigned
filename: one or more leading digits immediately followed by an underscore.
Since backtracking inside a maximal digit run cannot expose an underscore,
the regex matches exactly when the maximal leading digit run is nonempty and
the next character is the underscore. -/
def parseLeadingNum (s : String) : Option Nat :=
  let ds := s.data.takeWhile Char.isDigit
  if ds.isEmpty then none
  else if (s.data.dropWhile Char.isDigit).head? = some '_' then some (digitsVal ds)
  else none

/-- The multiset of leading numbers among the assigned filenames of the
ledger; malformed entries contribute nothing. -/
def ledgerNums (ledger : List String) : List Nat :=
  ledger.filterMap parseLeadingNum

/-- Model of `app.js` `getNextNumber`: with no counted numbers return 1; otherwise
return the maximum counted number while it occurs fewer than twice, and its
successor once it occurs twice or more. -/
def getNextNumber (ledger : List String) : Nat :=
  let nums := ledgerNums ledger
  if nums = [] then 1
  else
    let maxNumber := nums.foldl Nat.max 0
    if nums.count maxNumber < 2 then maxNumber else maxNumber + 1

/-- First-match association-list lookup, the semantics of reading a
property of a JS object used as a dictionary (keys are unique, so any
match discipline agrees; we take the first). -/
def lookupTbl (tbl : List (String × String)) (k : String) : Option String :=
  match tbl with
  | [] => none
  | (k', v) :: rest => if k' = k then some v else lookupTbl rest k

/-- JS `Map.prototype.set` / object property assignment on an
insertion-ordered association list: overwrite in place when the key is
present, append otherwise. -/
def mapSet {α : Type} (m : List (String × α)) (k : String) (v : α) : List (String × α) :=
  match m with
  | [] => [(k, v)]
  | (k', v') :: rest => if k' = k then (k, v) :: rest else (k', v') :: mapSet rest k v

/-- Generic association-list lookup (used for ledgers whose values are
records). -/
def lookupA {α : Type} (m : List (String × α)) (k : String) : Option α :=
  match m with
  | [] => none
  | (k', v) :: rest => if k' = k then some v else lookupA rest k

/-- JS `str.split('.')`: split a character list at every dot. -/
def splitOnDot : List Char → List (List Char)
  | [] => [[]]
  | c :: cs =>
    if c = '.' then [] :: splitOnDot cs
    else
      match splitOnDot cs with
      | [] => [[c]]
      | h :: t => (c :: h) :: t

/-- JS `name.split('.').pop()`: the segment after the last dot, or the whole
name when it contains no dot. -/
def extOf (s : String) : String :=
  String.mk ((splitOnDot s.data).getLast?.getD [])

/-- A chunk of a filename as produced by the regex `(\d+)|(\D+)` in
`app.js` `naturalSort`: either a maximal digit run (kept as its numeric
value, the way the comparator coerces it) or a maximal non-digit run. -/
inductive NatChunk where
  | num (n : Nat)
  | str (s : List Char)
deriving DecidableEq

/-- Extend the chunk list (kept reversed) by one character, merging it into
the last chunk when it continues the same maximal run. -/
def pushChar (acc : List NatChunk) (c : Char) : List NatChunk :=
  match acc, c.isDigit with
  | NatChunk.num n :: rest, true => NatChunk.num (n * 10 + (c.toNat - 48)) :: rest
  | NatChunk.str s :: rest, false => NatChunk.str (s ++ [c]) :: rest
  | _, true => NatChunk.num (c.toNat - 48) :: acc
  | _, false => NatChunk.str [c] :: acc

/-- The chunk decomposition used by `app.js` `naturalSort`. -/
def toChunks (l : List Char) : List NatChunk :=
  (l.foldl pushChar []).reverse

/-- Code-point comparison of character lists.  This models
`String.prototype.localeCompare` for the lowercase ASCII alphanumeric
filenames considered here, on which the default collation and code-point
order agree. -/
def cpCmp : List Char → List Char → Ordering
  | [], [] => Ordering.eq
  | [], _ :: _ => Ordering.lt
  | _ :: _, [] => Ordering.gt
  | a :: as, b :: bs =>
    match compare a.toNat b.toNat with
    | Ordering.eq => cpCmp as bs
    | o => o

/-- JS `a.localeCompare(b)` as an `Ordering` (see `cpCmp`). -/
def localeCompare (a b : String) : Ordering :=
  cpCmp a.data b.data

/-- Comparison of two chunks in `app.js` `naturalSort`: the comparator
computes `an[0] - bn[0]`, where a digit chunk carries its numeric value and
a text chunk carries `Infinity`, falling back to `localeCompare` of the text
parts (empty for digit chunks) when the difference is zero or `NaN`. -/
def chunkCmp : NatChunk → NatChunk → Ordering
  | NatChunk.num a, NatChunk.num b => compare a b
  | NatChunk.num _, NatChunk.str _ => Ordering.lt
  | NatChunk.str _, NatChunk.num _ => Ordering.gt
  | NatChunk.str s, NatChunk.str t => cpCmp s t

/-- The loop of `app.js` `naturalSort`: compare chunk lists pointwise and
break ties by the leftover length difference. -/
def natChunksCmp : List NatChunk → List NatChunk → Ordering
  | [], [] => Ordering.eq
  | [], _ :: _ => Ordering.lt
  | _ :: _, [] => Ordering.gt
  | a :: as, b :: bs =>
    match chunkCmp a b with
    | Ordering.eq => natChunksCmp as bs
    | o => o

/-- Model of `app.js` `naturalSort`, as an `Ordering`-valued comparator. -/
def naturalSort (a b : String) : Ordering :=
  natChunksCmp (toChunks a.data) (toChunks b.data)

/-- Stable insertion of an element into a list already sorted by the
comparator: the element goes after every earlier element it does not
strictly precede. -/
def insertCmp (cmp : String → String → Ordering) (x : String) : List String → List String
  | [] => [x]
  | y :: ys => if cmp x y = Ordering.lt then x :: y :: ys else y :: insertCmp cmp x ys

/-- Stable sort by a comparator, the result `Array.prototype.sort` is
specified to produce for a consistent comparator. -/
def sortByCmp (cmp : String → String → Ordering) (l : List String) : List String :=
  l.foldl (fun acc x => insertCmp cmp x acc) []

namespace AppJs

/-- The lookup tables of `app.js`'s `AppState` that filename generation
reads (built by the Excel import). -/
structure Tables where
  materialNameToId : List (String × String)
  processingMethods : List (String × String)
  implementers : List (String × String)
deriving DecidableEq

/-- The form fields of `app.js`, by the `value` each DOM element holds. -/
structure Form where
  numberInput : String
  implementerSelect : String
  partNameInput : String
  weightInput : String
  unitSelect : String
  materialSelect : String
  processingSelect : String
  photoTypeSelect : String
  notesSelect : String
deriving DecidableEq

/-- One value of `app.js`'s `processedFiles` map (the blob is opaque and
omitted). -/
structure ProcessedEntry where
  newName : String
  extension : String
deriving DecidableEq

/-- The full filename of a processed entry, as assembled both in
`applyAndNext` and in `downloadZip`. -/
def entryFullName (e : ProcessedEntry) : String :=
  e.newName ++ "." ++ e.extension

/-- The part of `app.js`'s global `AppState` that the confirm flow touches:
the lookup tables, the sorted image sequence (by original filename), the
cursor, and the ledger. -/
structure State where
  tables : Tables
  imageFiles : List String
  currentIndex : Nat
  processedFiles : List (String × ProcessedEntry)
deriving DecidableEq

/-- The assigned new names of the ledger, in insertion order, as iterated
by `getNextNumber`. -/
def ledgerNames (st : State) : List String :=
  st.processedFiles.map (fun e => e.2.newName)

/-- Model of `app.js` `validateForm`: the five required fields are truthy (part name
and weight after trimming). -/
def validateForm (f : Form) : Bool :=
  jsTrim f.partNameInput ≠ "" && jsTrim f.weightInput ≠ "" &&
  f.implementerSelect ≠ "" && f.materialSelect ≠ "" && f.processingSelect ≠ ""

/-- A missing property of a JS object is `undefined`, which a template
literal renders as the string `"undefined"`. -/
def templField (tbl : List (String × String)) (k : String) : String :=
  match lookupTbl tbl k with
  | some v => v
  | none => "undefined"

/-- Model of `app.js` `generateFilename`: the number is the explicit field when
truthy, else `getNextNumber`; empty when any of the five required fields is
empty; otherwise the underscore-joined composition. -/
def generateFilename (f : Form) (t : Tables) (ledger : List String) : String :=
  let number := if f.numberInput = "" then toString (getNextNumber ledger) else f.numberInput
  let partName := jsTrim f.partNameInput
  let weight := jsTrim f.weightInput
  if partName = "" ∨ weight = "" ∨ f.implementerSelect = "" ∨
     f.materialSelect = "" ∨ f.processingSelect = "" then ""
  else
    let implementerId := templField t.implementers f.implementerSelect
    let materialId := templField t.materialNameToId f.materialSelect
    let processingId := templField t.processingMethods f.processingSelect
    number ++ "_" ++ partName ++ "_" ++ weight ++ "_" ++ f.unitSelect ++ "_" ++
      materialId ++ "_" ++ processingId ++ "_" ++ implementerId ++ "_" ++
      f.photoTypeSelect ++ "_" ++ f.notesSelect

/-- Model of `app.js` `applyAndNext`: gate on `validateForm`; record the generated
name and extension under the current image's original filename; advance the
cursor unless it is at the last index.  (Out-of-range cursor access throws
before any mutation and is caught, leaving the state unchanged.) -/
def applyAndNext (st : State) (f : Form) : State :=
  if !validateForm f then st
  else
    match st.imageFiles.get? st.currentIndex with
    | none => st
    | some name =>
      let newFilename := generateFilename f st.tables (ledgerNames st)
      let ext := extOf name
      let processed := mapSet st.processedFiles name ⟨newFilename, ext⟩
      let idx := if st.currentIndex < st.imageFiles.length - 1
                 then st.currentIndex + 1 else st.currentIndex
      { st with processedFiles := processed, currentIndex := idx }

/-- Model of `app.js` `handleImageUpload` (state part): sort the incoming filenames
with `naturalSort`, reset the cursor, clear the ledger. -/
def handleImageUpload (st : State) (files : List String) : State :=
  if files = [] then st
  else { st with imageFiles := sortByCmp naturalSort files,
                 currentIndex := 0, processedFiles := [] }

end AppJs

namespace ScriptJs

/-- The part of `script.js`'s `state` object that the confirm flow touches. -/
structure State where
  materials : List (String × String)
  materialNameToId : List (String × String)
  processing : List (String × String)
  images : List String
  currentIndex : Nat
  renamedFiles : List (String × String)
deriving DecidableEq

/-- The raw form field values of `script.js`. -/
structure Raw where
  partName : String
  weight : String
  unit : String
  category : String
  material : String
  processing : String
  photoType : String
  notes : String
deriving DecidableEq

/-- The record returned by `script.js` `getInputValues` (part name and
weight trimmed at read time). -/
structure Values where
  partName : String
  weight : String
  unit : String
  category : String
  material : String
  processing : String
  photoType : String
  notes : String
deriving DecidableEq

/-- Model of `script.js` `getInputValues`. -/
def getInputValues (r : Raw) : Values :=
  { partName := jsTrim r.partName, weight := jsTrim r.weight, unit := r.unit,
    category := r.category, material := r.material, processing := r.processing,
    photoType := r.photoType, notes := r.notes }

/-- Model of `script.js` `isReady`: both masters loaded and at least one image. -/
def isReady (st : State) : Bool :=
  st.materials ≠ [] && st.processing ≠ [] && st.images ≠ []

/-- The weight pattern of `script.js` `validateInputs`:
`/^[0-9a-zA-Z.-]+$/`. -/
def weightOk (s : String) : Bool :=
  s ≠ "" && s.data.all (fun c => c.isAlphanum || c = '.' || c = '-')

/-- Model of `script.js` `validateInputs`. -/
def validateInputs (r : Raw) : Bool :=
  let v := getInputValues r
  v.partName ≠ "" && weightOk v.weight && v.category ≠ "" &&
  v.material ≠ "" && v.processing ≠ ""

/-- JS `x || d` for a dictionary read `x`: the default replaces both a
missing key (`undefined`) and a falsy (empty) stored value. -/
def jsOrElse (o : Option String) (d : String) : String :=
  match o with
  | some v => if v = "" then d else v
  | none => d

/-- Model of `script.js` `generateNewFilename`: empty when not ready, the `"..."`
sentinel when a required field is missing, otherwise the composition with
sanitized part name and weight, `???`-defaulted identifiers, and the number
`currentIndex + 1`. -/
def generateNewFilename (st : State) (r : Raw) : String :=
  if !isReady st then ""
  else
    let v := getInputValues r
    if v.partName = "" ∨ v.material = "" ∨ v.processing = "" then "..."
    else
      let partName := sanitizeFilename v.partName
      let weight := sanitizeFilename v.weight
      let matId := jsOrElse (lookupTbl st.materialNameToId v.material) "???"
      let procId := jsOrElse (lookupTbl st.processing v.processing) "???"
      let number := st.currentIndex + 1
      toString number ++ "_" ++ partName ++ "_" ++ weight ++ "_" ++ v.unit ++ "_" ++
        matId ++ "_" ++ procId ++ "_" ++ v.photoType ++ "_" ++ v.notes

/-- Model of `script.js` `applyAndNext`: gate on `validateInputs`; record the full
new name (base plus dot plus `split('.').pop()` of the original) under the
original filename; advance the cursor unless at the last index. -/
def applyAndNext (st : State) (r : Raw) : State :=
  if !validateInputs r then st
  else
    match st.images.get? st.currentIndex with
    | none => st
    | some name =>
      let newNameBase := generateNewFilename st r
      let newFullname := newNameBase ++ "." ++ extOf name
      let renamed := mapSet st.renamedFiles name newFullname
      let idx := if st.currentIndex < st.images.length - 1
                 then st.currentIndex + 1 else st.currentIndex
      { st with renamedFiles := renamed, currentIndex := idx }

/-- Model of `script.js` `handleImagesLoad` (state part): sort the incoming
filenames with `localeCompare`, reset the cursor, clear the renames. -/
def handleImagesLoad (st : State) (files : List String) : State :=
  if files = [] then st
  else { st with images := sortByCmp localeCompare files,
                 currentIndex := 0, renamedFiles := [] }

end ScriptJs

theorem foldlMax_mem_cons (l : List Nat) : ∀ a : Nat, l.foldl Nat.max a ∈ a :: l := by
  induction l with
  | nil => intro a; simp
  | cons x xs ih =>
    intro a
    simp only [List.foldl_cons]
    rcases List.mem_cons.mp (ih (Nat.max a x)) with h1 | h2
    · rw [h1]
      rcases Nat.le_total a x with hc | hc
      · have h2 : Nat.max a x = x := Nat.max_eq_right hc
        rw [h2]
        simp
      · have h2 : Nat.max a x = a := Nat.max_eq_left hc
        rw [h2]
        simp
    · exact List.mem_cons_of_mem _ (List.mem_cons_of_mem _ h2)

theorem le_foldlMax (l : List Nat) : ∀ a : Nat,
    a ≤ l.foldl Nat.max a ∧ ∀ x ∈ l, x ≤ l.foldl Nat.max a := by
  induction l with
  | nil => intro a; simp
  | cons y ys ih =>
    intro a
    simp only [List.foldl_cons]
    refine ⟨le_trans (Nat.le_max_left a y) (ih (Nat.max a y)).1, ?_⟩
    intro x hx
    rcases List.mem_cons.mp hx with h1 | h2
    · rw [h1]
      exact le_trans (Nat.le_max_right a y) (ih (Nat.max a y)).1
    · exact (ih (Nat.max a y)).2 x h2

theorem foldlMax_le {n : Nat} (l : List Nat) : ∀ a : Nat,
    a ≤ n → (∀ x ∈ l, x ≤ n) → l.foldl Nat.max a ≤ n := by
  induction l with
  | nil => intro a ha _; simpa using ha
  | cons y ys ih =>
    intro a ha h
    simp only [List.foldl_cons]
    exact ih (Nat.max a y) (Nat.max_le.mpr ⟨ha, h y (by simp)⟩)
      (fun x hx => h x (List.mem_cons_of_mem _ hx))

theorem foldlMax_mem {l : List Nat} (h : l ≠ []) : l.foldl Nat.max 0 ∈ l := by
  rcases List.mem_cons.mp (foldlMax_mem_cons l 0) with h0 | hm
  · cases l with
    | nil => exact absurd rfl h
    | cons y ys =>
      have hy : y ≤ 0 := h0 ▸ ((le_foldlMax (y :: ys) 0).2 y (by simp))
      have hy0 : y = 0 := Nat.le_zero.mp hy
      rw [h0, ← hy0]
      simp
  · exact hm

theorem ledgerNums_append_some {L : List String} {s : String} {n : Nat}
    (h : parseLeadingNum s = some n) : ledgerNums (L ++ [s]) = ledgerNums L ++ [n] := by
  simp [ledgerNums, List.filterMap_append, List.filterMap_cons, h]

theorem ledgerNums_append_none {L : List String} {s : String}
    (h : parseLeadingNum s = none) : ledgerNums (L ++ [s]) = ledgerNums L := by
  simp [ledgerNums, List.filterMap_append, List.filterMap_cons, h]

theorem getNextNumber_of_nil {L : List String} (h : ledgerNums L = []) :
    getNextNumber L = 1 := by
  simp [getNextNumber, h]

theorem getNextNumber_of_ne_nil {L : List String} (h : ¬ ledgerNums L = []) :
    getNextNumber L =
      if (ledgerNums L).count ((ledgerNums L).foldl Nat.max 0) < 2
      then (ledgerNums L).foldl Nat.max 0
      else (ledgerNums L).foldl Nat.max 0 + 1 := by
  simp [getNextNumber, h]

theorem getNextNumber_step (L : List String) (s : String)
    (h : parseLeadingNum s = some (getNextNumber L)) :
    getNextNumber (L ++ [s]) =
      if (ledgerNums L).count (getNextNumber L) = 0
      then getNextNumber L
      else getNextNumber L + 1 := by
  have happ := ledgerNums_append_some (L := L) h
  by_cases hnil : ledgerNums L = []
  · have h1 : getNextNumber L = 1 := getNextNumber_of_nil hnil
    rw [h1] at happ
    have hne : ledgerNums (L ++ [s]) ≠ [] := by rw [happ, hnil]; simp
    rw [getNextNumber_of_ne_nil hne, happ, hnil, h1]
    simp
  · have hMmem : (ledgerNums L).foldl Nat.max 0 ∈ ledgerNums L := foldlMax_mem hnil
    have hMle : ∀ x ∈ ledgerNums L, x ≤ (ledgerNums L).foldl Nat.max 0 :=
      fun x hx => (le_foldlMax (ledgerNums L) 0).2 x hx
    have hcpos : 0 < (ledgerNums L).count ((ledgerNums L).foldl Nat.max 0) :=
      List.count_pos_iff.mpr hMmem
    have hgl := getNextNumber_of_ne_nil hnil
    by_cases hc : (ledgerNums L).count ((ledgerNums L).foldl Nat.max 0) < 2
    · have hn1 : getNextNumber L = (ledgerNums L).foldl Nat.max 0 := by rw [hgl, if_pos hc]
      have hcount1 : (ledgerNums L).count ((ledgerNums L).foldl Nat.max 0) = 1 := by omega
      rw [hn1] at happ ⊢
      have hne2 : ledgerNums (L ++ [s]) ≠ [] := by rw [happ]; simp
      rw [getNextNumber_of_ne_nil hne2, happ]
      have hfold : (ledgerNums L ++ [(ledgerNums L).foldl Nat.max 0]).foldl Nat.max 0
          = (ledgerNums L).foldl Nat.max 0 := by
        rw [List.foldl_append]
        simp
      rw [hfold]
      have hcnt : (ledgerNums L ++ [(ledgerNums L).foldl Nat.max 0]).count
          ((ledgerNums L).foldl Nat.max 0) = 2 := by
        rw [List.count_append, hcount1]
        simp
      rw [hcnt, hcount1]
      simp
    · have hn1 : getNextNumber L = (ledgerNums L).foldl Nat.max 0 + 1 := by rw [hgl, if_neg hc]
      have hnotmem : (ledgerNums L).foldl Nat.max 0 + 1 ∉ ledgerNums L := by
        intro hmem
        have := hMle _ hmem
        omega
      have hcnt0 : (ledgerNums L).count ((ledgerNums L).foldl Nat.max 0 + 1) = 0 :=
        List.count_eq_zero.mpr hnotmem
      rw [hn1] at happ ⊢
      have hne2 : ledgerNums (L ++ [s]) ≠ [] := by rw [happ]; simp
      rw [getNextNumber_of_ne_nil hne2, happ]
      have hfold : (ledgerNums L ++ [(ledgerNums L).foldl Nat.max 0 + 1]).foldl Nat.max 0
          = (ledgerNums L).foldl Nat.max 0 + 1 := by
        rw [List.foldl_append]
        simp [Nat.max_eq_right (Nat.le_succ ((ledgerNums L).foldl Nat.max 0))]
      have hcnt : (ledgerNums L ++ [(ledgerNums L).foldl Nat.max 0 + 1]).count
          ((ledgerNums L).foldl Nat.max 0 + 1) = 1 := by
        rw [List.count_append, hcnt0]
        simp
      rw [hfold, hcnt, hcnt0]
      simp

/-- C1: `getNextNumber` returns 1 when no ledger entry has a numeric
leading number; otherwise, for the maximum leading number M among the
assigned filenames, it returns M when M occurs fewer than twice and M + 1
when M occurs twice or more; an entry without a leading number before the
first underscore is ignored, not an error. -/
theorem getNextNumber_pair_rule (ledger : List String) :
    (ledgerNums ledger = [] → getNextNumber ledger = 1) ∧
    (∀ M, M ∈ ledgerNums ledger → (∀ n ∈ ledgerNums ledger, n ≤ M) →
      getNextNumber ledger = if (ledgerNums ledger).count M < 2 then M else M + 1) ∧
    (∀ s, parseLeadingNum s = none →
      getNextNumber (ledger ++ [s]) = getNextNumber ledger) := by
  refine ⟨getNextNumber_of_nil, ?_, ?_⟩
  · intro M hM hAll
    have hne : ledgerNums ledger ≠ [] := List.ne_nil_of_mem hM
    have hMeq : (ledgerNums ledger).foldl Nat.max 0 = M :=
      Nat.le_antisymm (foldlMax_le (ledgerNums ledger) 0 (Nat.zero_le M) hAll)
        ((le_foldlMax (ledgerNums ledger) 0).2 M hM)
    rw [getNextNumber_of_ne_nil hne, hMeq]
  · intro s hs
    have h := ledgerNums_append_none (L := ledger) hs
    simp [getNextNumber, h]

/-- C1 witness: the rule evaluated on concrete ledgers, through
`getNextNumber_pair_rule`. -/
theorem getNextNumber_pair_rule_witness :
    getNextNumber [] = 1 ∧
    getNextNumber ["1_a.jpg", "2_b.jpg"] = 2 ∧
    getNextNumber (["1_a.jpg", "2_b.jpg"] ++ ["note.txt"]) =
      getNextNumber ["1_a.jpg", "2_b.jpg"] := by
  refine ⟨(getNextNumber_pair_rule []).1 (by decide), ?_,
    (getNextNumber_pair_rule ["1_a.jpg", "2_b.jpg"]).2.2 "note.txt" (by decide)⟩
  have h := (getNextNumber_pair_rule ["1_a.jpg", "2_b.jpg"]).2.1 2 (by decide) (by decide)
  rw [h]
  decide

/-- C4: `getNextNumber` never returns a number smaller than any leading
number already in the ledger; when each returned number is recorded (as the
leading number of the appended assigned filename) before the next call, the
returned values are non-decreasing and never skip a value; and once a value
has been returned twice in a row the next call moves past it. -/
theorem getNextNumber_monotone (L : List String) (s s' : String) :
    (∀ n ∈ ledgerNums L, n ≤ getNextNumber L) ∧
    (parseLeadingNum s = some (getNextNumber L) →
      getNextNumber L ≤ getNextNumber (L ++ [s]) ∧
      getNextNumber (L ++ [s]) ≤ getNextNumber L + 1) ∧
    (parseLeadingNum s = some (getNextNumber L) →
      parseLeadingNum s' = some (getNextNumber (L ++ [s])) →
      getNextNumber (L ++ [s]) = getNextNumber L →
      getNextNumber (L ++ [s] ++ [s']) = getNextNumber L + 1) := by
  refine ⟨?_, ?_, ?_⟩
  · intro n hn
    have hne : ledgerNums L ≠ [] := List.ne_nil_of_mem hn
    have hle : n ≤ (ledgerNums L).foldl Nat.max 0 := (le_foldlMax (ledgerNums L) 0).2 n hn
    rw [getNextNumber_of_ne_nil hne]
    split <;> omega
  · intro hs
    rw [getNextNumber_step L s hs]
    split <;> omega
  · intro hs hs' heq
    have hstep := getNextNumber_step L s hs
    have hcnt0 : (ledgerNums L).count (getNextNumber L) = 0 := by
      by_contra hne
      rw [hstep, if_neg hne] at heq
      omega
    have hcnt1 : (ledgerNums (L ++ [s])).count (getNextNumber (L ++ [s])) ≠ 0 := by
      rw [ledgerNums_append_some (L := L) hs, heq, List.count_append]
      simp
    rw [getNextNumber_step (L ++ [s]) s' hs', if_neg hcnt1, heq]

/-- C4 witness: the three parts of `getNextNumber_monotone` applied to a
concrete ledger history 1,1,2,2. -/
theorem getNextNumber_monotone_witness :
    (1 ≤ getNextNumber ["1_a.jpg", "1_b.jpg"]) ∧
    getNextNumber ["1_a.jpg", "1_b.jpg"] ≤
      getNextNumber (["1_a.jpg", "1_b.jpg"] ++ ["2_c.jpg"]) ∧
    getNextNumber (["1_a.jpg", "1_b.jpg"] ++ ["2_c.jpg"] ++ ["2_d.jpg"]) =
      getNextNumber ["1_a.jpg", "1_b.jpg"] + 1 := by
  have h := getNextNumber_monotone ["1_a.jpg", "1_b.jpg"] "2_c.jpg" "2_d.jpg"
  exact ⟨h.1 1 (by decide), (h.2.1 (by decide)).1,
    h.2.2 (by decide) (by decide) (by decide)⟩

theorem mem_collapseWsAux {c : Char} : ∀ (b : Bool) (l : List Char),
    c ∈ collapseWsAux b l → c = ' ' ∨ c ∈ l := by
  intro b l
  induction l generalizing b with
  | nil => intro h; simp [collapseWsAux] at h
  | cons x xs ih =>
    intro h
    by_cases hw : jsWhitespace x = true
    · cases b with
      | true =>
        simp only [collapseWsAux, hw, if_true] at h
        rcases ih true h with h1 | h2
        · exact Or.inl h1
        · exact Or.inr (List.mem_cons_of_mem _ h2)
      | false =>
        simp only [collapseWsAux, hw, if_true] at h
        rcases List.mem_cons.mp h with h1 | h1
        · exact Or.inl h1
        · rcases ih true h1 with h2 | h2
          · exact Or.inl h2
          · exact Or.inr (List.mem_cons_of_mem _ h2)
    · have hx : collapseWsAux b (x :: xs) = x :: collapseWsAux false xs := by
        cases b <;> simp [collapseWsAux, hw]
      rw [hx] at h
      rcases List.mem_cons.mp h with h1 | h1
      · exact Or.inr (h1 ▸ List.mem_cons_self x xs)
      · rcases ih false h1 with h2 | h2
        · exact Or.inl h2
        · exact Or.inr (List.mem_cons_of_mem _ h2)

theorem headNotWs_collapse : ∀ (l : List Char) (h : Char),
    (collapseWsAux true l).head? = some h → jsWhitespace h = false := by
  intro l
  induction l with
  | nil => intro h hh; simp [collapseWsAux] at hh
  | cons x xs ih =>
    intro h hh
    by_cases hw : jsWhitespace x = true
    · rw [show collapseWsAux true (x :: xs) = collapseWsAux true xs by
        simp [collapseWsAux, hw]] at hh
      exact ih h hh
    · rw [show collapseWsAux true (x :: xs) = x :: collapseWsAux false xs by
        simp [collapseWsAux, hw]] at hh
      simp only [List.head?_cons, Option.some.injEq] at hh
      rw [← hh]
      simpa using hw

theorem wsAreSpace_collapse : ∀ (b : Bool) (l : List Char) (c : Char),
    c ∈ collapseWsAux b l → jsWhitespace c = true → c = ' ' := by
  intro b l
  induction l generalizing b with
  | nil => intro c h; simp [collapseWsAux] at h
  | cons x xs ih =>
    intro c h hc
    by_cases hw : jsWhitespace x = true
    · cases b with
      | true =>
        rw [show collapseWsAux true (x :: xs) = collapseWsAux true xs by
          simp [collapseWsAux, hw]] at h
        exact ih true c h hc
      | false =>
        rw [show collapseWsAux false (x :: xs) = ' ' :: collapseWsAux true xs by
          simp [collapseWsAux, hw]] at h
        rcases List.mem_cons.mp h with h1 | h1
        · exact h1
        · exact ih true c h1 hc
    · rw [show collapseWsAux b (x :: xs) = x :: collapseWsAux false xs by
        cases b <;> simp [collapseWsAux, hw]] at h
      rcases List.mem_cons.mp h with h1 | h1
      · exact absurd (h1 ▸ hc) hw
      · exact ih false c h1 hc

/-- No two adjacent whitespace characters. -/
def noAdjWs (l : List Char) : Prop :=
  l.Chain' (fun a b => ¬(jsWhitespace a = true ∧ jsWhitespace b = true))

theorem noAdjWs_collapse : ∀ (b : Bool) (l : List Char), noAdjWs (collapseWsAux b l) := by
  intro b l
  induction l generalizing b with
  | nil => simp [collapseWsAux, noAdjWs]
  | cons x xs ih =>
    by_cases hw : jsWhitespace x = true
    · cases b with
      | true =>
        rw [show collapseWsAux true (x :: xs) = collapseWsAux true xs by
          simp [collapseWsAux, hw]]
        exact ih true
      | false =>
        rw [show collapseWsAux false (x :: xs) = ' ' :: collapseWsAux true xs by
          simp [collapseWsAux, hw]]
        refine List.chain'_cons'.mpr ⟨?_, ih true⟩
        intro y hy
        intro hcontra
        exact (by simp [headNotWs_collapse xs y hy] at hcontra)
    · rw [show collapseWsAux b (x :: xs) = x :: collapseWsAux false xs by
        cases b <;> simp [collapseWsAux, hw]]
      refine List.chain'_cons'.mpr ⟨?_, ih false⟩
      intro y hy hcontra
      exact hw hcontra.1

theorem collapse_eq_self : ∀ l : List Char,
    (∀ c ∈ l, jsWhitespace c = true → c = ' ') → noAdjWs l →
    collapseWsAux false l = l ∧
    ((∀ h, l.head? = some h → jsWhitespace h = false) → collapseWsAux true l = l) := by
  intro l
  induction l with
  | nil => intro _ _; exact ⟨rfl, fun _ => rfl⟩
  | cons x xs ih =>
    intro hsp hadj
    have hadj' := (List.chain'_cons'.mp hadj).2
    have hrel := (List.chain'_cons'.mp hadj).1
    have hsp' : ∀ c ∈ xs, jsWhitespace c = true → c = ' ' :=
      fun c hc => hsp c (List.mem_cons_of_mem _ hc)
    have ihx := ih hsp' hadj'
    constructor
    · by_cases hw : jsWhitespace x = true
      · have hx : x = ' ' := hsp x (List.mem_cons_self x xs) hw
        rw [show collapseWsAux false (x :: xs) = ' ' :: collapseWsAux true xs by
          simp [collapseWsAux, hw]]
        have hxs : collapseWsAux true xs = xs := by
          apply ihx.2
          intro h hh
          by_contra hws
          exact hrel h hh ⟨hw, by simpa using hws⟩
        rw [hxs, hx]
      · rw [show collapseWsAux false (x :: xs) = x :: collapseWsAux false xs by
          simp [collapseWsAux, hw]]
        rw [ihx.1]
    · intro hhead
      have hw : jsWhitespace x = false := hhead x rfl
      rw [show collapseWsAux true (x :: xs) = x :: collapseWsAux false xs by
        simp [collapseWsAux, hw]]
      rw [ihx.1]

theorem dropWhile_eq_self_of_head {α : Type} (p : α → Bool) (l : List α)
    (h : ∀ a, l.head? = some a → p a = false) : l.dropWhile p = l := by
  cases l with
  | nil => rfl
  | cons x xs => simp [List.dropWhile_cons, h x rfl]

theorem getLast?_dropWhile {α : Type} (p : α → Bool) (l : List α)
    (h : l.dropWhile p ≠ []) : (l.dropWhile p).getLast? = l.getLast? := by
  obtain ⟨t, ht⟩ := List.dropWhile_suffix (l := l) p
  conv_rhs => rw [← ht]
  rw [List.getLast?_append_of_ne_nil t h]

theorem head?_dropWhile_false {α : Type} (p : α → Bool) (l : List α) (a : α)
    (h : (l.dropWhile p).head? = some a) : p a = false := by
  have hne : l.dropWhile p ≠ [] := by
    intro h0
    rw [h0] at h
    simp at h
  have := List.head_dropWhile_not p l hne
  rwa [show (l.dropWhile p).head hne = a from by
    have := List.head?_eq_head hne
    rw [this] at h
    exact Option.some.injEq _ _ ▸ h] at this

theorem trimWs_head (l : List Char) (a : Char)
    (h : (trimWs l).head? = some a) : jsWhitespace a = false := by
  unfold trimWs at h
  rw [List.head?_reverse] at h
  have hne : ((l.dropWhile (fun c => jsWhitespace c)).reverse.dropWhile
      (fun c => jsWhitespace c)) ≠ [] := by
    intro h0
    rw [h0] at h
    simp at h
  rw [getLast?_dropWhile _ _ hne, List.getLast?_reverse] at h
  exact head?_dropWhile_false _ _ _ h

theorem trimWs_getLast (l : List Char) (a : Char)
    (h : (trimWs l).getLast? = some a) : jsWhitespace a = false := by
  unfold trimWs at h
  rw [List.getLast?_reverse] at h
  exact head?_dropWhile_false _ _ _ h

theorem trimWs_eq_self (l : List Char)
    (hh : ∀ a, l.head? = some a → jsWhitespace a = false)
    (hl : ∀ a, l.getLast? = some a → jsWhitespace a = false) : trimWs l = l := by
  unfold trimWs
  rw [dropWhile_eq_self_of_head _ l hh]
  rw [dropWhile_eq_self_of_head _ l.reverse
    (fun a ha => hl a (by rwa [List.head?_reverse] at ha))]
  exact List.reverse_reverse l

theorem trimWs_isInfix (l : List Char) : trimWs l <:+: l := by
  obtain ⟨w1, hw1⟩ := List.dropWhile_suffix (l := l) (fun c => jsWhitespace c)
  obtain ⟨w2, hw2⟩ := List.dropWhile_suffix
    (l := (l.dropWhile (fun c => jsWhitespace c)).reverse) (fun c => jsWhitespace c)
  refine ⟨w1, w2.reverse, ?_⟩
  have hu : l.dropWhile (fun c => jsWhitespace c) = trimWs l ++ w2.reverse := by
    have hrev := congrArg List.reverse hw2
    rw [List.reverse_append, List.reverse_reverse] at hrev
    exact hrev.symm
  conv_rhs => rw [← hw1, hu]
  rw [List.append_assoc]

theorem mem_trimWs {c : Char} {l : List Char} (h : c ∈ trimWs l) : c ∈ l :=
  (trimWs_isInfix l).sublist.mem h

theorem noAdjWs_trimWs {l : List Char} (h : noAdjWs l) : noAdjWs (trimWs l) :=
  List.Chain'.infix h (trimWs_isInfix l)

theorem sanitizeFilename_noForbidden (s : String) :
    ∀ c ∈ (sanitizeFilename s).data, isForbiddenChar c = false := by
  by_cases hs : s = ""
  · rw [hs]
    decide
  · intro c hc
    have hc' : c ∈ trimWs (collapseWsAux false
        (s.data.filter (fun c => !isForbiddenChar c))) := by
      simpa [sanitizeFilename, hs] using hc
    have h1 := mem_trimWs hc'
    rcases mem_collapseWsAux false _ h1 with h2 | h2
    · rw [h2]
      decide
    · simpa using (List.mem_filter.mp h2).2

theorem sanitizeFilename_data (s : String) (hs : s ≠ "") :
    (sanitizeFilename s).data =
      trimWs (collapseWsAux false (s.data.filter (fun c => !isForbiddenChar c))) := by
  simp [sanitizeFilename, hs]

theorem string_mk_ne_empty {l : List Char} (h : l ≠ []) : String.mk l ≠ "" := by
  intro he
  exact h (by simpa using congrArg String.data he)

/-- C7 (amended): `sanitizeFilename` is idempotent on every input whose
sanitized form is nonempty; the exception forced by the counterexample is a
string that sanitizes to the empty string, which re-sanitizes to
`"untitled"`. -/
theorem sanitizeFilename_idem (s : String) (h : sanitizeFilename s ≠ "") :
    sanitizeFilename (sanitizeFilename s) = sanitizeFilename s := by
  by_cases hs : s = ""
  · rw [hs]
    decide
  · have hdata := sanitizeFilename_data s hs
    have hsp : ∀ c ∈ (sanitizeFilename s).data, jsWhitespace c = true → c = ' ' := by
      intro c hc hw
      rw [hdata] at hc
      exact wsAreSpace_collapse false _ c (mem_trimWs hc) hw
    have hadj : noAdjWs (sanitizeFilename s).data := by
      rw [hdata]
      exact noAdjWs_trimWs (noAdjWs_collapse false _)
    have hhead : ∀ a, (sanitizeFilename s).data.head? = some a → jsWhitespace a = false := by
      intro a ha
      rw [hdata] at ha
      exact trimWs_head _ a ha
    have hlast : ∀ a, (sanitizeFilename s).data.getLast? = some a → jsWhitespace a = false := by
      intro a ha
      rw [hdata] at ha
      exact trimWs_getLast _ a ha
    have hforb := sanitizeFilename_noForbidden s
    generalize hgen : sanitizeFilename s = t at h hsp hadj hhead hlast hforb ⊢
    simp only [sanitizeFilename, if_neg h]
    have hfilter : t.data.filter (fun c => !isForbiddenChar c) = t.data := by
      apply List.filter_eq_self.mpr
      intro c hc
      simp [hforb c hc]
    rw [hfilter, (collapse_eq_self t.data hsp hadj).1, trimWs_eq_self t.data hhead hlast]

/-- C7 witness: idempotence through `sanitizeFilename_idem` at a concrete
nonempty input containing a forbidden character and a whitespace run. -/
theorem sanitizeFilename_idem_witness :
    sanitizeFilename (sanitizeFilename "a<  b") = sanitizeFilename "a<  b" := by
  have h := sanitizeFilename_idem "a<  b" (by decide)
  exact h

/-- C7 counterexample: the claim "sanitize is idempotent for every string"
fails at `"<"`: the single forbidden character sanitizes to the empty
string, and re-sanitizing the empty string yields `"untitled"`. -/
theorem sanitizeFilename_not_idempotent :
    sanitizeFilename "<" = "" ∧
    sanitizeFilename (sanitizeFilename "<") = "untitled" ∧
    sanitizeFilename (sanitizeFilename "<") ≠ sanitizeFilename "<" := by
  decide

/-- C3 (amended): `app.js` `generateFilename` returns the empty string
exactly when part name or weight is empty after trimming or the
implementer, material, or processing selection is empty; the character
allow-list on weight is enforced by `script.js` `validateInputs` — the gate
of the confirm action — and not by filename generation. -/
theorem generateFilename_empty_iff (f : AppJs.Form) (t : AppJs.Tables)
    (L : List String) (r : ScriptJs.Raw) :
    (AppJs.generateFilename f t L = "" ↔
      (jsTrim f.partNameInput = "" ∨ jsTrim f.weightInput = "" ∨
       f.implementerSelect = "" ∨ f.materialSelect = "" ∨ f.processingSelect = "")) ∧
    (ScriptJs.validateInputs r = true ↔
      (jsTrim r.partName ≠ "" ∧ ScriptJs.weightOk (jsTrim r.weight) = true ∧
       r.category ≠ "" ∧ r.material ≠ "" ∧ r.processing ≠ "")) := by
  constructor
  · constructor
    · intro he
      by_contra hn
      push_neg at hn
      obtain ⟨h1, h2, h3, h4, h5⟩ := hn
      simp only [AppJs.generateFilename] at he
      rw [if_neg (by push_neg; exact ⟨h1, h2, h3, h4, h5⟩)] at he
      have hlen := congrArg String.length he
      simp only [String.length_append] at hlen
      simp only [show ("_" : String).length = 1 from rfl] at hlen
      simp at hlen
    · intro hn
      rcases hn with h | h | h | h | h <;> simp [AppJs.generateFilename, h]
  · simp [ScriptJs.validateInputs, ScriptJs.getInputValues, and_assoc]

/-- C3 counterexample: a weight failing the allow-list constraint does not
make `app.js` `generateFilename` return the empty result — the claimed
equivalence between a nonempty result and validity of every required field
(with the weight allow-list among the constraints) fails here. -/
theorem generateFilename_weight_allowlist_ignored :
    ScriptJs.weightOk "@@" = false ∧
    AppJs.generateFilename ⟨"", "Alice", "Bracket", "@@", "kg", "Aluminum", "Anodize", "P", "0"⟩
        ⟨[("Aluminum", "M01")], [("Anodize", "P02")], [("Alice", "I03")]⟩ []
      = "1_Bracket_@@_kg_M01_P02_I03_P_0" ∧
    AppJs.generateFilename ⟨"", "Alice", "Bracket", "@@", "kg", "Aluminum", "Anodize", "P", "0"⟩
        ⟨[("Aluminum", "M01")], [("Anodize", "P02")], [("Alice", "I03")]⟩ [] ≠ "" := by
  decide

/-- C2: the concrete scenario — with the given lookup tables, an empty
ledger, and the given form state, confirming `IMG_001.jpg` records exactly
the full name `1_Bracket_12.5_kg_M01_P02_I03_P_0.jpg`, the fields joined by
underscores in the fixed positional order with the original extension
appended after a dot. -/
theorem confirm_concrete_scenario :
    AppJs.generateFilename
        ⟨"", "Alice", "Bracket", "12.5", "kg", "Aluminum", "Anodize", "P", "0"⟩
        ⟨[("Aluminum", "M01")], [("Anodize", "P02")], [("Alice", "I03")]⟩ []
      = "1_Bracket_12.5_kg_M01_P02_I03_P_0" ∧
    (lookupA (AppJs.applyAndNext
        ⟨⟨[("Aluminum", "M01")], [("Anodize", "P02")], [("Alice", "I03")]⟩,
         ["IMG_001.jpg"], 0, []⟩
        ⟨"", "Alice", "Bracket", "12.5", "kg", "Aluminum", "Anodize", "P", "0"⟩).processedFiles
      "IMG_001.jpg").map AppJs.entryFullName
      = some "1_Bracket_12.5_kg_M01_P02_I03_P_0.jpg" := by
  decide

/-- C5 (amended): in the `script.js` variant a selected material or
processing name missing from its lookup table degrades to the literal
placeholder `???` in the composed name; in the `app.js` variant the missing
identifier is instead rendered as the string `undefined` (the counterexample
to the claim as stated). -/
theorem lookup_miss_placeholder (st : ScriptJs.State) (r : ScriptJs.Raw)
    (h1 : ScriptJs.isReady st = true) (h2 : jsTrim r.partName ≠ "")
    (h3 : r.material ≠ "") (h4 : r.processing ≠ "")
    (h5 : lookupTbl st.materialNameToId r.material = none)
    (h6 : lookupTbl st.processing r.processing = none) :
    ScriptJs.generateNewFilename st r =
      toString (st.currentIndex + 1) ++ "_" ++ sanitizeFilename (jsTrim r.partName) ++ "_" ++
      sanitizeFilename (jsTrim r.weight) ++ "_" ++ r.unit ++ "_" ++ "???" ++ "_" ++ "???" ++
      "_" ++ r.photoType ++ "_" ++ r.notes := by
  simp [ScriptJs.generateNewFilename, ScriptJs.getInputValues, ScriptJs.jsOrElse,
    h1, h2, h3, h4, h5, h6]

/-- C5 witness: `lookup_miss_placeholder` applied to a concrete state whose
material and processing tables miss the selected names. -/
theorem lookup_miss_placeholder_witness :
    ScriptJs.generateNewFilename
        ⟨[("Aluminum", "M01")], [("Aluminum", "M01")], [("Anodize", "P02")], ["a.jpg"], 0, []⟩
        ⟨"Bracket", "12.5", "kg", "Metal", "Steel", "Paint", "P", "0"⟩
      = "1_Bracket_12.5_kg_???_???_P_0" := by
  have h := lookup_miss_placeholder
    ⟨[("Aluminum", "M01")], [("Aluminum", "M01")], [("Anodize", "P02")], ["a.jpg"], 0, []⟩
    ⟨"Bracket", "12.5", "kg", "Metal", "Steel", "Paint", "P", "0"⟩
    (by decide) (by decide) (by decide) (by decide) (by decide) (by decide)
  rw [h]
  decide

/-- C5 counterexample: on a lookup miss `app.js` `generateFilename` embeds
the string `undefined`, not the `???` placeholder the claim requires. -/
theorem appjs_lookup_miss_undefined :
    AppJs.generateFilename
        ⟨"", "Alice", "Bracket", "12.5", "kg", "Steel", "Anodize", "P", "0"⟩
        ⟨[("Aluminum", "M01")], [("Anodize", "P02")], [("Alice", "I03")]⟩ []
      = "1_Bracket_12.5_kg_undefined_P02_I03_P_0" ∧
    AppJs.generateFilename
        ⟨"", "Alice", "Bracket", "12.5", "kg", "Steel", "Anodize", "P", "0"⟩
        ⟨[("Aluminum", "M01")], [("Anodize", "P02")], [("Alice", "I03")]⟩ []
      ≠ "1_Bracket_12.5_kg_???_P02_I03_P_0" := by
  decide

/-- C6 (amended): in the `script.js` variant the part-name and weight
fields of the generated name are the `sanitizeFilename` images of the
inputs, and a sanitized field never contains a character of the forbidden
class; the `app.js` variant (the counterexample) embeds the raw fields. -/
theorem generateNewFilename_sanitized (st : ScriptJs.State) (r : ScriptJs.Raw)
    (h1 : ScriptJs.isReady st = true) (h2 : jsTrim r.partName ≠ "")
    (h3 : r.material ≠ "") (h4 : r.processing ≠ "") :
    ScriptJs.generateNewFilename st r =
      toString (st.currentIndex + 1) ++ "_" ++ sanitizeFilename (jsTrim r.partName) ++ "_" ++
      sanitizeFilename (jsTrim r.weight) ++ "_" ++ r.unit ++ "_" ++
      ScriptJs.jsOrElse (lookupTbl st.materialNameToId r.material) "???" ++ "_" ++
      ScriptJs.jsOrElse (lookupTbl st.processing r.processing) "???" ++ "_" ++
      r.photoType ++ "_" ++ r.notes ∧
    (∀ c ∈ (sanitizeFilename (jsTrim r.partName)).data, isForbiddenChar c = false) ∧
    (∀ c ∈ (sanitizeFilename (jsTrim r.weight)).data, isForbiddenChar c = false) := by
  refine ⟨?_, sanitizeFilename_noForbidden _, sanitizeFilename_noForbidden _⟩
  simp [ScriptJs.generateNewFilename, ScriptJs.getInputValues, h1, h2, h3, h4]

/-- C6 witness: `generateNewFilename_sanitized` at a concrete form whose
part name contains a forbidden character and a whitespace run, which the
generated name carries in sanitized form. -/
theorem generateNewFilename_sanitized_witness :
    ScriptJs.generateNewFilename
        ⟨[("Aluminum", "M01")], [("Aluminum", "M01")], [("Anodize", "P02")], ["a.jpg"], 0, []⟩
        ⟨"Bra<ck>et  2", "12.5", "kg", "Metal", "Aluminum", "Anodize", "P", "0"⟩
      = "1_Bracket 2_12.5_kg_M01_P02_P_0" := by
  have h := (generateNewFilename_sanitized
    ⟨[("Aluminum", "M01")], [("Aluminum", "M01")], [("Anodize", "P02")], ["a.jpg"], 0, []⟩
    ⟨"Bra<ck>et  2", "12.5", "kg", "Metal", "Aluminum", "Anodize", "P", "0"⟩
    (by decide) (by decide) (by decide) (by decide)).1
  rw [h]
  decide

/-- C6 counterexample: `app.js` `generateFilename` performs no
sanitization — a part name accepted by `validateForm` and containing `<`
reaches the generated filename unchanged. -/
theorem appjs_no_sanitization :
    AppJs.validateForm ⟨"", "Alice", "a<b", "12.5", "kg", "Aluminum", "Anodize", "P", "0"⟩
      = true ∧
    '<' ∈ (AppJs.generateFilename
        ⟨"", "Alice", "a<b", "12.5", "kg", "Aluminum", "Anodize", "P", "0"⟩
        ⟨[("Aluminum", "M01")], [("Anodize", "P02")], [("Alice", "I03")]⟩ []).data ∧
    isForbiddenChar '<' = true := by
  decide

theorem getLast?_cons_of_ne_nil {α : Type} (a : α) {l : List α} (h : l ≠ []) :
    (a :: l).getLast? = l.getLast? := by
  cases l with
  | nil => exact absurd rfl h
  | cons x xs => exact List.getLast?_cons_cons

theorem splitOnDot_ne_nil (l : List Char) : splitOnDot l ≠ [] := by
  induction l with
  | nil => simp [splitOnDot]
  | cons c cs ih =>
    by_cases h : c = '.'
    · simp [splitOnDot, h]
    · cases hm : splitOnDot cs with
      | nil => simp [splitOnDot, h, hm]
      | cons x xs => simp [splitOnDot, h, hm]

theorem lastSeg_no_dot (l : List Char) : '.' ∉ (splitOnDot l).getLast?.getD [] := by
  induction l with
  | nil => simp [splitOnDot]
  | cons c cs ih =>
    by_cases h : c = '.'
    · rw [show splitOnDot (c :: cs) = [] :: splitOnDot cs by simp [splitOnDot, h]]
      rw [getLast?_cons_of_ne_nil _ (splitOnDot_ne_nil cs)]
      exact ih
    · cases hm : splitOnDot cs with
      | nil => exact absurd hm (splitOnDot_ne_nil cs)
      | cons x xs =>
        rw [show splitOnDot (c :: cs) = (c :: x) :: xs by simp [splitOnDot, h, hm]]
        cases xs with
        | nil =>
          rw [hm] at ih
          simp only [List.getLast?_singleton, Option.getD_some] at ih ⊢
          intro hmem
          rcases List.mem_cons.mp hmem with h1 | h1
          · exact h h1.symm
          · exact ih h1
        | cons y ys =>
          rw [hm, getLast?_cons_of_ne_nil _ (by simp)] at ih
          rw [getLast?_cons_of_ne_nil _ (by simp)]
          exact ih

theorem splitOnDot_no_dot {l : List Char} (h : '.' ∉ l) : splitOnDot l = [l] := by
  induction l with
  | nil => rfl
  | cons c cs ih =>
    have hc : ¬ c = '.' := fun hh => h (hh ▸ List.mem_cons_self c cs)
    have hcs : '.' ∉ cs := fun hh => h (List.mem_cons_of_mem _ hh)
    simp [splitOnDot, hc, ih hcs]

theorem splitOnDot_length_ge_two {l : List Char} (h : '.' ∈ l) :
    2 ≤ (splitOnDot l).length := by
  induction l with
  | nil => simp at h
  | cons c cs ih =>
    by_cases hc : c = '.'
    · rw [show splitOnDot (c :: cs) = [] :: splitOnDot cs by simp [splitOnDot, hc]]
      have h1 : splitOnDot cs ≠ [] := splitOnDot_ne_nil cs
      have h2 : 0 < (splitOnDot cs).length := List.length_pos.mpr h1
      simp only [List.length_cons]
      omega
    · have hcs : '.' ∈ cs := by
        rcases List.mem_cons.mp h with h1 | h1
        · exact absurd h1.symm hc
        · exact h1
      cases hm : splitOnDot cs with
      | nil => exact absurd hm (splitOnDot_ne_nil cs)
      | cons x xs =>
        rw [show splitOnDot (c :: cs) = (c :: x) :: xs by simp [splitOnDot, hc, hm]]
        have h2 := ih hcs
        rw [hm] at h2
        simpa using h2

theorem lastSeg_after_dot {l : List Char} (h : '.' ∈ l) :
    ∃ pre, l = pre ++ '.' :: ((splitOnDot l).getLast?.getD []) := by
  induction l with
  | nil => simp at h
  | cons c cs ih =>
    by_cases hc : c = '.'
    · rw [show splitOnDot (c :: cs) = [] :: splitOnDot cs by simp [splitOnDot, hc]]
      rw [getLast?_cons_of_ne_nil _ (splitOnDot_ne_nil cs)]
      by_cases hcs : '.' ∈ cs
      · obtain ⟨pre, hpre⟩ := ih hcs
        exact ⟨c :: pre, by rw [List.cons_append, ← hpre]⟩
      · refine ⟨[], ?_⟩
        rw [splitOnDot_no_dot hcs]
        simp [hc]
    · have hcs : '.' ∈ cs := by
        rcases List.mem_cons.mp h with h1 | h1
        · exact absurd h1.symm hc
        · exact h1
      obtain ⟨pre, hpre⟩ := ih hcs
      cases hm : splitOnDot cs with
      | nil => exact absurd hm (splitOnDot_ne_nil cs)
      | cons x xs =>
        have hxs : xs ≠ [] := by
          have h2 := splitOnDot_length_ge_two hcs
          rw [hm] at h2
          intro h0
          rw [h0] at h2
          simp at h2
        rw [show splitOnDot (c :: cs) = (c :: x) :: xs by simp [splitOnDot, hc, hm]]
        rw [getLast?_cons_of_ne_nil _ hxs]
        have heq : (splitOnDot cs).getLast?.getD [] = xs.getLast?.getD [] := by
          rw [hm, getLast?_cons_of_ne_nil _ hxs]
        rw [heq] at hpre
        exact ⟨c :: pre, by rw [List.cons_append, ← hpre]⟩

theorem extOf_of_no_dot {s : String} (h : '.' ∉ s.data) : extOf s = s := by
  unfold extOf
  rw [splitOnDot_no_dot h]
  exact String.ext rfl

theorem lookupA_mapSet {α : Type} (m : List (String × α)) (k q : String) (v : α) :
    lookupA (mapSet m k v) q = if q = k then some v else lookupA m q := by
  induction m with
  | nil =>
    by_cases h : q = k
    · subst h
      simp [mapSet, lookupA]
    · have h2 : ¬ k = q := fun hh => h hh.symm
      simp [mapSet, lookupA, h, h2]
  | cons p rest ih =>
    obtain ⟨k1, v1⟩ := p
    by_cases h1 : k1 = k
    · subst h1
      by_cases h2 : q = k1
      · subst h2
        simp [mapSet, lookupA]
      · have h3 : ¬ k1 = q := fun hh => h2 hh.symm
        simp [mapSet, lookupA, h2, h3]
    · by_cases h2 : k1 = q
      · subst h2
        simp [mapSet, lookupA, h1]
      · simp [mapSet, lookupA, h1, h2, ih]

/-- C8 (amended): on confirmation the recorded extension is
`split('.').pop()` of the original filename: when the name contains a dot
this is the segment after the last dot; when it contains no dot it is the
whole original filename, and the full name still gets a dot and that
segment appended (rather than no extension). -/
theorem extension_rule (st : AppJs.State) (f : AppJs.Form) (name : String)
    (hv : AppJs.validateForm f = true)
    (hn : st.imageFiles.get? st.currentIndex = some name) :
    (∃ e, lookupA (AppJs.applyAndNext st f).processedFiles name = some e ∧
      e.extension = extOf name ∧
      AppJs.entryFullName e =
        AppJs.generateFilename f st.tables (AppJs.ledgerNames st) ++ "." ++ extOf name) ∧
    ('.' ∈ name.data →
      ∃ pre, name.data = pre ++ '.' :: (extOf name).data ∧ '.' ∉ (extOf name).data) ∧
    ('.' ∉ name.data → extOf name = name) := by
  refine ⟨?_, ?_, extOf_of_no_dot⟩
  · have h1 : AppJs.applyAndNext st f =
        { st with
          processedFiles := mapSet st.processedFiles name
            ⟨AppJs.generateFilename f st.tables (AppJs.ledgerNames st), extOf name⟩,
          currentIndex := if st.currentIndex < st.imageFiles.length - 1
            then st.currentIndex + 1 else st.currentIndex } := by
      have hn2 : st.imageFiles[st.currentIndex]? = some name := by simpa using hn
      simp [AppJs.applyAndNext, hv, hn2]
    refine ⟨⟨AppJs.generateFilename f st.tables (AppJs.ledgerNames st), extOf name⟩,
      ?_, rfl, rfl⟩
    rw [h1]
    simp only [lookupA_mapSet]
    simp
  · intro hdot
    obtain ⟨pre, hpre⟩ := lastSeg_after_dot hdot
    exact ⟨pre, by simpa [extOf] using hpre, by simpa [extOf] using lastSeg_no_dot name.data⟩

/-- C8 witness: `extension_rule` at a concrete confirmation of
`IMG_001.jpg`, whose recorded extension is `extOf "IMG_001.jpg"`. -/
theorem extension_rule_witness :
    (lookupA (AppJs.applyAndNext
        ⟨⟨[("Aluminum", "M01")], [("Anodize", "P02")], [("Alice", "I03")]⟩,
         ["IMG_001.jpg"], 0, []⟩
        ⟨"", "Alice", "Bracket", "12.5", "kg", "Aluminum", "Anodize", "P", "0"⟩).processedFiles
      "IMG_001.jpg").map (fun e => e.extension) = some (extOf "IMG_001.jpg") := by
  obtain ⟨e, he, hex, hfull⟩ := (extension_rule
    ⟨⟨[("Aluminum", "M01")], [("Anodize", "P02")], [("Alice", "I03")]⟩, ["IMG_001.jpg"], 0, []⟩
    ⟨"", "Alice", "Bracket", "12.5", "kg", "Aluminum", "Anodize", "P", "0"⟩
    "IMG_001.jpg" (by decide) (by decide)).1
  rw [he]
  simp [hex]

/-- C8 counterexample: confirming an original filename with no dot does not
leave the generated name without an extension — the whole original name is
appended after a dot. -/
theorem no_dot_whole_name_extension :
    (lookupA (AppJs.applyAndNext
        ⟨⟨[("Aluminum", "M01")], [("Anodize", "P02")], [("Alice", "I03")]⟩, ["photo"], 0, []⟩
        ⟨"", "Alice", "Bracket", "12.5", "kg", "Aluminum", "Anodize", "P", "0"⟩).processedFiles
      "photo").map AppJs.entryFullName
      = some "1_Bracket_12.5_kg_M01_P02_I03_P_0.photo" ∧
    ("1_Bracket_12.5_kg_M01_P02_I03_P_0.photo" : String)
      ≠ "1_Bracket_12.5_kg_M01_P02_I03_P_0" := by
  decide

/-- C9 (amended): the `app.js` variant sorts the imported image names with
`naturalSort`, which compares embedded digit runs numerically, so the given
input produces the claimed order; the `script.js` variant (the
counterexample) sorts with plain `localeCompare` instead. -/
theorem natural_sort_order :
    (AppJs.handleImageUpload ⟨⟨[], [], []⟩, [], 0, []⟩
        ["img10.jpg", "img2.jpg", "img1.jpg"]).imageFiles
      = ["img1.jpg", "img2.jpg", "img10.jpg"] ∧
    naturalSort "img2.jpg" "img10.jpg" = Ordering.lt := by
  decide

/-- C9 counterexample: `script.js` sorts imported images with
`localeCompare`, which orders `img10.jpg` before `img2.jpg`, so the image
sequence differs from the natural order the claim states. -/
theorem script_sort_not_natural :
    (ScriptJs.handleImagesLoad ⟨[], [], [], [], 0, []⟩
        ["img10.jpg", "img2.jpg", "img1.jpg"]).images
      = ["img1.jpg", "img10.jpg", "img2.jpg"] ∧
    (["img1.jpg", "img10.jpg", "img2.jpg"] : List String)
      ≠ ["img1.jpg", "img2.jpg", "img10.jpg"] := by
  decide

/-- C10: when validation passes, `applyAndNext` (in both variants) changes
at most the ledger entry keyed by the current image's original filename and
the cursor — advanced by one when not at the last index, unchanged at the
last index — while every other ledger entry, the image sequence, and the
lookup tables are unchanged. -/
theorem applyAndNext_frame (st : AppJs.State) (f : AppJs.Form) (name : String)
    (st2 : ScriptJs.State) (r : ScriptJs.Raw) (name2 : String)
    (hv : AppJs.validateForm f = true)
    (hn : st.imageFiles.get? st.currentIndex = some name)
    (hv2 : ScriptJs.validateInputs r = true)
    (hn2 : st2.images.get? st2.currentIndex = some name2) :
    ((AppJs.applyAndNext st f).tables = st.tables ∧
     (AppJs.applyAndNext st f).imageFiles = st.imageFiles ∧
     (∀ q, q ≠ name → lookupA (AppJs.applyAndNext st f).processedFiles q
        = lookupA st.processedFiles q) ∧
     lookupA (AppJs.applyAndNext st f).processedFiles name
        = some ⟨AppJs.generateFilename f st.tables (AppJs.ledgerNames st), extOf name⟩ ∧
     (AppJs.applyAndNext st f).currentIndex
        = if st.currentIndex < st.imageFiles.length - 1 then st.currentIndex + 1
          else st.currentIndex) ∧
    ((ScriptJs.applyAndNext st2 r).materials = st2.materials ∧
     (ScriptJs.applyAndNext st2 r).materialNameToId = st2.materialNameToId ∧
     (ScriptJs.applyAndNext st2 r).processing = st2.processing ∧
     (ScriptJs.applyAndNext st2 r).images = st2.images ∧
     (∀ q, q ≠ name2 → lookupA (ScriptJs.applyAndNext st2 r).renamedFiles q
        = lookupA st2.renamedFiles q) ∧
     lookupA (ScriptJs.applyAndNext st2 r).renamedFiles name2
        = some (ScriptJs.generateNewFilename st2 r ++ "." ++ extOf name2) ∧
     (ScriptJs.applyAndNext st2 r).currentIndex
        = if st2.currentIndex < st2.images.length - 1 then st2.currentIndex + 1
          else st2.currentIndex) := by
  have h1 : AppJs.applyAndNext st f =
      { st with
        processedFiles := mapSet st.processedFiles name
          ⟨AppJs.generateFilename f st.tables (AppJs.ledgerNames st), extOf name⟩,
        currentIndex := if st.currentIndex < st.imageFiles.length - 1
          then st.currentIndex + 1 else st.currentIndex } := by
    have hn' : st.imageFiles[st.currentIndex]? = some name := by simpa using hn
    simp [AppJs.applyAndNext, hv, hn']
  have h2 : ScriptJs.applyAndNext st2 r =
      { st2 with
        renamedFiles := mapSet st2.renamedFiles name2
          (ScriptJs.generateNewFilename st2 r ++ "." ++ extOf name2),
        currentIndex := if st2.currentIndex < st2.images.length - 1
          then st2.currentIndex + 1 else st2.currentIndex } := by
    have hn2' : st2.images[st2.currentIndex]? = some name2 := by simpa using hn2
    simp [ScriptJs.applyAndNext, hv2, hn2']
  rw [h1, h2]
  refine ⟨⟨rfl, rfl, ?_, ?_, rfl⟩, rfl, rfl, rfl, rfl, ?_, ?_, rfl⟩
  · intro q hq
    simp only [lookupA_mapSet]
    rw [if_neg hq]
  · simp only [lookupA_mapSet]
    simp
  · intro q hq
    simp only [lookupA_mapSet]
    rw [if_neg hq]
  · simp only [lookupA_mapSet]
    simp

/-- C10 witness: `applyAndNext_frame` at concrete two-image states of both
variants, where the cursor advances from 0 to 1. -/
theorem applyAndNext_frame_witness :
    (AppJs.applyAndNext
        ⟨⟨[("Aluminum", "M01")], [("Anodize", "P02")], [("Alice", "I03")]⟩,
         ["a.jpg", "b.jpg"], 0, []⟩
        ⟨"", "Alice", "Bracket", "12.5", "kg", "Aluminum", "Anodize", "P", "0"⟩).currentIndex
      = 1 ∧
    (ScriptJs.applyAndNext
        ⟨[("Aluminum", "M01")], [("Aluminum", "M01")], [("Anodize", "P02")],
         ["a.jpg", "b.jpg"], 0, []⟩
        ⟨"Bracket", "12.5", "kg", "Metal", "Aluminum", "Anodize", "P", "0"⟩).currentIndex
      = 1 := by
  have h := applyAndNext_frame
    ⟨⟨[("Aluminum", "M01")], [("Anodize", "P02")], [("Alice", "I03")]⟩,
     ["a.jpg", "b.jpg"], 0, []⟩
    ⟨"", "Alice", "Bracket", "12.5", "kg", "Aluminum", "Anodize", "P", "0"⟩
    "a.jpg"
    ⟨[("Aluminum", "M01")], [("Aluminum", "M01")], [("Anodize", "P02")],
     ["a.jpg", "b.jpg"], 0, []⟩
    ⟨"Bracket", "12.5", "kg", "Metal", "Aluminum", "Anodize", "P", "0"⟩
    "a.jpg"
    (by decide) (by decide) (by decide) (by decide)
  constructor
  · rw [h.1.2.2.2.2]
    decide
  · rw [h.2.2.2.2.2.2.2]
    decide
